import Mathlib

/-!
Verification of the SelectionDAGBuilder core (SelectionDAGBuilder.h).

Machine basic blocks, IR values and SelectionDAG nodes are identified by
natural numbers; C++ null pointers are modelled by Option.none.  Inline
member-function bodies present in the header are translated directly;
member functions whose bodies are not in the sources are modelled from the
specification, as marked in their doc comments.
-/

namespace SDB

/-! ## StackProtectorDescriptor (header lines 396-485) -/

/-- Model of StackProtectorDescriptor: the four pointer fields, with
Option.none standing for the C++ null pointer the default constructor
installs. -/
structure SPD where
  ParentMBB : Option Nat
  SuccessMBB : Option Nat
  FailureMBB : Option Nat
  Guard : Option Nat
deriving DecidableEq, Repr

/-- Default-constructed descriptor: all four fields null. -/
def SPD.empty : SPD := ⟨none, none, none, none⟩

/-- shouldEmitStackProtector: true iff all four fields are populated
(header lines 404-406). -/
def SPD.shouldEmitStackProtector (s : SPD) : Bool :=
  s.ParentMBB.isSome && s.SuccessMBB.isSome && s.FailureMBB.isSome && s.Guard.isSome

/-- Modelled from the spec: the body of
StackProtectorDescriptor::AddSuccessorMBB is not in the sources; its
declaration comment (header lines 479-484) says the successor machine basic
block is created when the passed SuccMBB is null and reused otherwise.  The
supply of fresh machine basic blocks is modelled by a counter; the result is
the chosen block together with the updated counter. -/
def AddSuccessorMBB (next : Nat) (SuccMBB : Option Nat) : Nat × Nat :=
  match SuccMBB with
  | some m => (m, next)
  | none => (next, next + 1)

/-- StackProtectorDescriptor::initialize (header lines 410-421): asserts the
descriptor is not yet initialized (modelled as returning none on assertion
failure), then sets ParentMBB, creates SuccessMBB fresh, creates FailureMBB
only if not already present, and sets Guard from argument 0 of the
stack-protector-check call only if Guard is still null. -/
def SPD.init (s : SPD) (MBB : Nat) (arg0 : Nat) (next : Nat) :
    Option (SPD × Nat) :=
  if s.shouldEmitStackProtector then none
  else
    let p1 := AddSuccessorMBB next none
    let p2 := AddSuccessorMBB p1.2 s.FailureMBB
    some (⟨some MBB, some p1.1, some p2.1, some (s.Guard.getD arg0)⟩, p2.2)

/-- resetPerBBState (header lines 433-436): clears only ParentMBB and
SuccessMBB. -/
def SPD.resetPerBBState (s : SPD) : SPD :=
  { s with ParentMBB := none, SuccessMBB := none }

/-- resetPerFunctionState (header lines 447-450): clears only FailureMBB and
Guard. -/
def SPD.resetPerFunctionState (s : SPD) : SPD :=
  { s with FailureMBB := none, Guard := none }

/-- One per-block round: resetPerBBState followed by initialize, on a state
carrying the descriptor and the fresh-block counter.  The input is the pair
(parent machine basic block, argument 0 of the stack-protector-check call).
After resetPerBBState the descriptor is never ready, so initialize always
succeeds; the none branch is unreachable and returns the state unchanged. -/
def spStep (st : SPD × Nat) (inp : Nat × Nat) : SPD × Nat :=
  match (st.1.resetPerBBState).init inp.1 inp.2 st.2 with
  | some st2 => st2
  | none => st

/-- Run a sequence of per-block rounds. -/
def spRun (st : SPD × Nat) : List (Nat × Nat) → SPD × Nat
  | [] => st
  | i :: is => spRun (spStep st i) is

/-- The FailureMBB observed (via getFailureMBB) right after each initialize
call of a run. -/
def spFailures (st : SPD × Nat) : List (Nat × Nat) → List Nat
  | [] => []
  | i :: is => ((spStep st i).1.FailureMBB.getD 0) :: spFailures (spStep st i) is

theorem spStep_eq (st : SPD × Nat) (inp : Nat × Nat) :
    spStep st inp =
      (⟨some inp.1, some st.2, some (st.1.FailureMBB.getD (st.2 + 1)),
        some (st.1.Guard.getD inp.2)⟩,
       match st.1.FailureMBB with
       | some _ => st.2 + 1
       | none => st.2 + 2) := by
  unfold spStep SPD.init SPD.resetPerBBState AddSuccessorMBB
  cases h : st.1.FailureMBB <;>
    simp [SPD.shouldEmitStackProtector, h]

theorem spStep_failure (st : SPD × Nat) (inp : Nat × Nat) :
    (spStep st inp).1.FailureMBB = some (st.1.FailureMBB.getD (st.2 + 1)) := by
  rw [spStep_eq]

theorem spStep_guard (st : SPD × Nat) (inp : Nat × Nat) :
    (spStep st inp).1.Guard = some (st.1.Guard.getD inp.2) := by
  rw [spStep_eq]

theorem spFailures_const (f : Nat) :
    ∀ (inps : List (Nat × Nat)) (st : SPD × Nat),
      st.1.FailureMBB = some f →
      spFailures st inps = List.replicate inps.length f := by
  intro inps
  induction inps with
  | nil => intro st _; rfl
  | cons i is ih =>
    intro st hst
    have hstep : (spStep st i).1.FailureMBB = some f := by
      rw [spStep_failure, hst]; rfl
    simp [spFailures, List.replicate, hstep, Option.getD, ih _ hstep]

theorem spRun_guard (g : Nat) :
    ∀ (inps : List (Nat × Nat)) (st : SPD × Nat),
      st.1.Guard = some g → (spRun st inps).1.Guard = some g := by
  intro inps
  induction inps with
  | nil => intro st hst; exact hst
  | cons i is ih =>
    intro st hst
    have hstep : (spStep st i).1.Guard = some g := by
      rw [spStep_guard, hst]; rfl
    exact ih _ hstep

/-- Claim C3: within one function, the stack-protector failure block is
shared: across any sequence of initialize calls, each preceded by
resetPerBBState and with no intervening resetPerFunctionState, the FailureMBB
observed after each call is identical, because initialize creates the failure
block only when it is null and resetPerBBState clears only ParentMBB and
SuccessMBB. -/
theorem failure_block_unique_per_function (st : SPD × Nat)
    (inps : List (Nat × Nat)) (a b : Nat)
    (ha : a ∈ spFailures st inps) (hb : b ∈ spFailures st inps) : a = b := by
  cases inps with
  | nil => simp [spFailures] at ha
  | cons i is =>
    have hstep := spStep_failure st i
    have hconst := spFailures_const (st.1.FailureMBB.getD (st.2 + 1)) is
      (spStep st i) hstep
    have hcons : spFailures st (i :: is) =
        ((spStep st i).1.FailureMBB.getD 0) :: spFailures (spStep st i) is := rfl
    rw [hcons, hstep, hconst] at ha hb
    have ha2 : a = st.1.FailureMBB.getD (st.2 + 1) := by
      rcases List.mem_cons.mp ha with h | h
      · exact h
      · exact List.eq_of_mem_replicate h
    have hb2 : b = st.1.FailureMBB.getD (st.2 + 1) := by
      rcases List.mem_cons.mp hb with h | h
      · exact h
      · exact List.eq_of_mem_replicate h
    rw [ha2, hb2]

/-- Claim C3 witness: a concrete three-block run from a fresh function state
observes the same failure block three times. -/
theorem failure_block_unique_per_function_witness :
    (10 : Nat) ∈ spFailures (SPD.empty, 9) [(1, 7), (2, 8), (3, 9)] ∧
    (spFailures (SPD.empty, 9) [(1, 7), (2, 8), (3, 9)]).getD 2 0 = 10 :=
  ⟨by decide,
   failure_block_unique_per_function (SPD.empty, 9) [(1, 7), (2, 8), (3, 9)]
     ((spFailures (SPD.empty, 9) [(1, 7), (2, 8), (3, 9)]).getD 2 0) 10
     (by decide) (by decide)⟩

/-- Claim C4: initialize aborts (assertion failure, modelled as none) exactly
when called while the descriptor is already initialized, i.e. while
shouldEmitStackProtector holds, which in turn holds exactly when ParentMBB,
SuccessMBB, FailureMBB and Guard are all populated; from the not-ready state
initialize succeeds. -/
theorem spd_init_fails_iff_already_initialized (s : SPD) (MBB arg0 next : Nat) :
    ((SPD.init s MBB arg0 next).isNone = s.shouldEmitStackProtector) ∧
    (s.shouldEmitStackProtector = true ↔
      s.ParentMBB.isSome ∧ s.SuccessMBB.isSome ∧ s.FailureMBB.isSome ∧
      s.Guard.isSome) := by
  constructor
  · unfold SPD.init
    cases h : s.shouldEmitStackProtector <;> simp [h]
  · simp [SPD.shouldEmitStackProtector, and_assoc]

/-- Claim C9: within one function, only the first initialize call sets the
guard, capturing argument 0 of its stack-protector-check call; all later
initialize calls of the run leave the guard unchanged even when they pass
different arguments. -/
theorem guard_set_only_by_first_init (s0 : SPD) (n0 : Nat) (inp : Nat × Nat)
    (rest : List (Nat × Nat)) :
    (spStep (s0.resetPerFunctionState, n0) inp).1.Guard = some inp.2 ∧
    (spRun (spStep (s0.resetPerFunctionState, n0) inp) rest).1.Guard =
      some inp.2 := by
  have h1 : (spStep (s0.resetPerFunctionState, n0) inp).1.Guard = some inp.2 := by
    rw [spStep_guard]
    simp [SPD.resetPerFunctionState]
  exact ⟨h1, spRun_guard inp.2 rest _ h1⟩

/-! ## Per-block value maps (header lines 596-606) -/

/-- The per-block value map NodeMap (and its companion UnusedArgNodeMap),
modelled as an association list from IR value identity to the SelectionDAG
node recorded for it. -/
def VMap := List (Nat × Nat)

/-- Lookup in a value map; none models a DenseMap entry whose SDValue holds a
null node (the state the assert in setValue checks for). -/
def findV : VMap → Nat → Option Nat
  | [], _ => none
  | (k, n) :: rest, v => if k = v then some n else findV rest v

/-- setValue (header lines 596-600): asserts no node is recorded for V yet
(modelled as returning none on assertion failure), then records V -> N. -/
def setValue (m : VMap) (V N : Nat) : Option VMap :=
  match findV m V with
  | some _ => none
  | none => some ((V, N) :: m)

/-- setUnusedArgValue (header lines 602-606): same contract as setValue, on
the UnusedArgNodeMap. -/
def setUnusedArgValue (m : VMap) (V N : Nat) : Option VMap :=
  match findV m V with
  | some _ => none
  | none => some ((V, N) :: m)

/-- Claim C5: the per-block value map holds at most one entry per source
value: setValue (and setUnusedArgValue) aborts exactly when an entry for V is
already recorded, and otherwise records exactly the mapping V -> N, leaving
every other value's entry unchanged. -/
theorem setValue_records_once (m : VMap) (V N W : Nat) :
    (setValue m V N =
      if (findV m V).isSome then none else some ((V, N) :: m)) ∧
    (setUnusedArgValue m V N =
      if (findV m V).isSome then none else some ((V, N) :: m)) ∧
    (findV ((V, N) :: m) W = if W = V then some N else findV m W) := by
  refine ⟨?_, ?_, ?_⟩
  · unfold setValue
    cases h : findV m V <;> simp [h]
  · unfold setUnusedArgValue
    cases h : findV m V <;> simp [h]
  · by_cases h : W = V
    · subst h; simp [findV]
    · have h2 : ¬ V = W := fun e => h e.symm
      simp [findV, h, h2]

/-! ## CaseCmp (header lines 185-194) -/

/-- Switch case record (header lines 131-147): bounds are the raw w-bit
patterns of the two ConstantInt operands, plus the target machine basic block
and the edge-weight hint. -/
structure CaseW where
  Low : Nat
  High : Nat
  BB : Nat
  ExtraWeight : Nat
deriving DecidableEq, Repr

/-- Two's-complement signed value of a w-bit pattern, the interpretation
APInt::slt compares by. -/
def toSigned (w x : Nat) : Int :=
  if x < 2 ^ (w - 1) then (x : Int) else (x : Int) - 2 ^ w

/-- CaseCmp (header lines 187-194): compares C1.Low against C2.High with
APInt::slt, the signed less-than. -/
def CaseCmp (w : Nat) (C1 C2 : CaseW) : Bool :=
  decide (toSigned w C1.Low < toSigned w C2.High)

/-- A case is well formed when its signed range is nonempty. -/
def caseWF (w : Nat) (c : CaseW) : Prop :=
  toSigned w c.Low ≤ toSigned w c.High

/-- Two cases are disjoint when their signed ranges do not intersect. -/
def caseDisjoint (w : Nat) (c d : CaseW) : Prop :=
  toSigned w c.High < toSigned w d.Low ∨ toSigned w d.High < toSigned w c.Low

instance (w : Nat) (c : CaseW) : Decidable (caseWF w c) := by
  unfold caseWF; infer_instance

instance (w : Nat) (c d : CaseW) : Decidable (caseDisjoint w c d) := by
  unfold caseDisjoint; infer_instance

/-- Claim C10: CaseCmp C1 C2 returns true exactly when the signed value of
C1.Low is strictly below the signed value of C2.High, and on well-formed
pairwise-disjoint cases this coincides with ordering by signed lower
bound. -/
theorem casecmp_signed_lower_bound (w : Nat) (C1 C2 : CaseW)
    (h1 : caseWF w C1) (h2 : caseWF w C2) (hd : caseDisjoint w C1 C2) :
    (CaseCmp w C1 C2 = true ↔ toSigned w C1.Low < toSigned w C2.High) ∧
    (CaseCmp w C1 C2 = true ↔ toSigned w C1.Low < toSigned w C2.Low) := by
  unfold CaseCmp caseWF caseDisjoint at *
  constructor
  · exact decide_eq_true_iff
  · rw [decide_eq_true_iff]
    omega

/-- Claim C10 witness: on the 8-bit cases [0xF0, 0xF2] -> 1 and [0x05, 0x14]
-> 2 (signed -16..-14 and 5..20), CaseCmp orders the first below the
second. -/
theorem casecmp_signed_lower_bound_witness :
    (CaseCmp 8 ⟨0xF0, 0xF2, 1, 0⟩ ⟨0x05, 0x14, 2, 0⟩ = true ↔
      toSigned 8 0xF0 < toSigned 8 0x05) :=
  (casecmp_signed_lower_bound 8 ⟨0xF0, 0xF2, 1, 0⟩ ⟨0x05, 0x14, 2, 0⟩
    (by decide) (by decide) (by decide)).2

/-! ## Chain tokens, PendingLoads and PendingExports (header lines 111-123,
560-571) -/

/-- A SelectionDAG node, restricted to the chain-threading kinds the ordering
claims are about; each node records only its chain operands (the ordering
edges), since value operands play no role in memory ordering. -/
inductive NodeK where
  | entry : NodeK
  | load (addr : Nat) (chain : Nat) : NodeK
  | store (addr : Nat) (chain : Nat) : NodeK
  | tokenFactor (ops : List Nat) : NodeK
  | copyToReg (reg : Nat) (chain : Nat) : NodeK
deriving DecidableEq, Repr

/-- The chain (memory-ordering) operands of a node. -/
def chainOps : NodeK → List Nat
  | NodeK.entry => []
  | NodeK.load _ c => [c]
  | NodeK.store _ c => [c]
  | NodeK.tokenFactor ops => ops
  | NodeK.copyToReg _ c => [c]

/-- The node stored at index i of a graph (the graph is the list of nodes in
creation order; operands always refer to earlier indices). -/
def nodeAt (d : List NodeK) (i : Nat) : NodeK := d.getD i NodeK.entry

/-- Transitive reachability along chain operands: the ordering token at i
transitively includes the token at j. -/
inductive Reach (d : List NodeK) : Nat → Nat → Prop
  | refl (i : Nat) : Reach d i i
  | step {i k j : Nat} : k ∈ chainOps (nodeAt d i) → Reach d k j → Reach d i j

theorem Reach.mono {d e : List NodeK} {i j : Nat} (h : Reach d i j) :
    Reach (d ++ e) i j := by
  induction h with
  | refl i => exact Reach.refl i
  | step hk _ ih =>
    rename_i i k j2 _
    by_cases hi : i < d.length
    · refine Reach.step ?_ ih
      rw [nodeAt, List.getD_append _ _ _ _ hi]
      exact hk
    · have hentry : nodeAt d i = NodeK.entry := by
        rw [nodeAt, List.getD_eq_default]
        omega
      rw [hentry] at hk
      simp [chainOps] at hk

/-- Builder state: the graph built so far, the current root (ordering token),
and the two pending buffers of the header (lines 111-123). -/
structure BState where
  dag : List NodeK
  root : Nat
  pendingLoads : List Nat
  pendingExports : List Nat
deriving DecidableEq, Repr

/-- State at block entry: the entry token is node 0. -/
def initState : BState := ⟨[NodeK.entry], 0, [], []⟩

/-- Modelled from the spec: the body of SelectionDAGBuilder::getRoot is not
in the sources; per its header comment (lines 560-565) and the spec it
flushes the PendingLoads buffer into a single token-factor ordering token,
makes that token the current root, and returns it. -/
def getRoot (s : BState) : Nat × BState :=
  match s.pendingLoads with
  | [] => (s.root, s)
  | l :: ls =>
    (s.dag.length,
     ⟨s.dag ++ [NodeK.tokenFactor (l :: ls)], s.dag.length, [],
      s.pendingExports⟩)

/-- Modelled from the spec: the body of SelectionDAGBuilder::getControlRoot
is not in the sources; per its header comment (lines 567-571) and the spec it
applies getRoot's effect first, then flushes the PendingExports buffer into a
single token-factor (threaded through the getRoot token) and returns the
token required before a terminator. -/
def getControlRoot (s : BState) : Nat × BState :=
  let r := getRoot s
  if r.2.pendingExports.isEmpty then r
  else
    (r.2.dag.length,
     ⟨r.2.dag ++ [NodeK.tokenFactor (r.1 :: r.2.pendingExports)],
      r.2.dag.length, r.2.pendingLoads, []⟩)

/-- Modelled from the spec: a plain non-volatile load chains from the current
root without flushing, and is appended to PendingLoads (header lines 111-115,
spec 4.2). -/
def visitLoad (s : BState) (addr : Nat) : Nat × BState :=
  (s.dag.length,
   { s with dag := s.dag ++ [NodeK.load addr s.root],
            pendingLoads := s.pendingLoads ++ [s.dag.length] })

/-- Modelled from the spec: a volatile (or atomic) load first flushes
PendingLoads via getRoot, chains from the returned token, and becomes the new
root (spec 4.2: a store or volatile/atomic load flushes the pending-load
buffer first, then threads through that token). -/
def visitVolatileLoad (s : BState) (addr : Nat) : Nat × BState :=
  let r := getRoot s
  (r.2.dag.length,
   { r.2 with dag := r.2.dag ++ [NodeK.load addr r.1],
              root := r.2.dag.length })

/-- Modelled from the spec: a store first flushes PendingLoads via getRoot,
chains from the returned token, and becomes the new root (spec 4.2). -/
def visitStore (s : BState) (addr : Nat) : Nat × BState :=
  let r := getRoot s
  (r.2.dag.length,
   { r.2 with dag := r.2.dag ++ [NodeK.store addr r.1],
              root := r.2.dag.length })

/-- Modelled from the spec: exporting a value appends a CopyToReg node,
chained from the current root, to the PendingExports buffer (header lines
116-123, spec 4.2). -/
def CopyToExportRegs (s : BState) (reg : Nat) : Nat × BState :=
  (s.dag.length,
   { s with dag := s.dag ++ [NodeK.copyToReg reg s.root],
            pendingExports := s.pendingExports ++ [s.dag.length] })

/-- The memory operations of one source basic block, in source order. -/
inductive MOp where
  | load (addr : Nat) : MOp
  | vload (addr : Nat) : MOp
  | store (addr : Nat) : MOp
deriving DecidableEq, Repr

/-- True for the operations that create a load node. -/
def isLoadOp : MOp → Bool
  | MOp.load _ => true
  | MOp.vload _ => true
  | MOp.store _ => false

/-- True for the operations that flush PendingLoads before chaining (a store,
or a volatile/atomic load). -/
def isFlushOp : MOp → Bool
  | MOp.load _ => false
  | MOp.vload _ => true
  | MOp.store _ => true

/-- Emit one memory operation, returning the created node and new state. -/
def stepOp (s : BState) : MOp → Nat × BState
  | MOp.load a => visitLoad s a
  | MOp.vload a => visitVolatileLoad s a
  | MOp.store a => visitStore s a

/-- Emit a block's memory operations in source order, returning the final
state and the node created for each operation. -/
def runOps (s : BState) : List MOp → BState × List Nat
  | [] => (s, [])
  | op :: rest =>
    let r := stepOp s op
    let r2 := runOps r.2 rest
    (r2.1, r.1 :: r2.2)

/-- Builder-state invariant, tracking the set LS of load nodes emitted so
far: the root is a valid node; every pending load is a valid load node
chained from the current root; every tracked load is either still pending or
already ordered below the current root. -/
def Inv (s : BState) (LS : List Nat) : Prop :=
  s.root < s.dag.length ∧
  (∀ l2 ∈ s.pendingLoads, l2 < s.dag.length ∧
    ∃ a, nodeAt s.dag l2 = NodeK.load a s.root) ∧
  (∀ l2 ∈ LS, l2 ∈ s.pendingLoads ∨ Reach s.dag s.root l2)

theorem getRoot_flush (s : BState) (LS : List Nat) (h : Inv s LS) :
    (getRoot s).2.pendingLoads = [] ∧
    (getRoot s).2.pendingExports = s.pendingExports ∧
    (getRoot s).2.root = (getRoot s).1 ∧
    (∃ e, (getRoot s).2.dag = s.dag ++ e) ∧
    (getRoot s).1 < (getRoot s).2.dag.length ∧
    (∀ l2 ∈ LS, Reach (getRoot s).2.dag (getRoot s).1 l2) := by
  obtain ⟨hroot, hpend, hls⟩ := h
  obtain ⟨dag, root, pl, pe⟩ := s
  cases pl with
  | nil =>
    refine ⟨rfl, rfl, rfl, ⟨[], by simp [getRoot]⟩, hroot, ?_⟩
    intro l2 hl2
    rcases hls l2 hl2 with hmem | hr
    · simp at hmem
    · exact hr
  | cons l ls =>
    have htf : nodeAt (dag ++ [NodeK.tokenFactor (l :: ls)]) dag.length =
        NodeK.tokenFactor (l :: ls) := by
      rw [nodeAt, List.getD_append_right _ _ _ _ (Nat.le_refl _)]
      simp
    refine ⟨rfl, rfl, rfl, ⟨[NodeK.tokenFactor (l :: ls)], rfl⟩, by simp [getRoot], ?_⟩
    intro l2 hl2
    show Reach (dag ++ [NodeK.tokenFactor (l :: ls)]) dag.length l2
    rcases hls l2 hl2 with hmem | hr
    · exact Reach.step (by rw [htf]; exact hmem) (Reach.refl l2)
    · obtain ⟨hlt, a, hnode⟩ := hpend l (List.mem_cons_self l ls)
      have hnode2 : nodeAt (dag ++ [NodeK.tokenFactor (l :: ls)]) l =
          NodeK.load a root := by
        rw [nodeAt, List.getD_append _ _ _ _ hlt]
        exact hnode
      have hmem2 : root ∈
          chainOps (nodeAt (dag ++ [NodeK.tokenFactor (l :: ls)]) l) := by
        rw [hnode2]; simp [chainOps]
      exact Reach.step (by rw [htf]; exact List.mem_cons_self l ls)
        (Reach.step hmem2 hr.mono)

theorem getRoot_pending_reach (s : BState) :
    ∀ l2 ∈ s.pendingLoads, Reach (getRoot s).2.dag (getRoot s).1 l2 := by
  obtain ⟨dag, root, pl, pe⟩ := s
  cases pl with
  | nil => intro l2 hl2; simp at hl2
  | cons l ls =>
    intro l2 hl2
    show Reach (dag ++ [NodeK.tokenFactor (l :: ls)]) dag.length l2
    refine Reach.step ?_ (Reach.refl l2)
    rw [nodeAt, List.getD_append_right _ _ _ _ (Nat.le_refl _)]
    simp only [Nat.sub_self, List.getD]
    simpa [chainOps] using hl2

theorem getRoot_dag (s : BState) : ∃ e, (getRoot s).2.dag = s.dag ++ e := by
  obtain ⟨dag, root, pl, pe⟩ := s
  cases pl with
  | nil => exact ⟨[], by simp [getRoot]⟩
  | cons l ls => exact ⟨[NodeK.tokenFactor (l :: ls)], rfl⟩

theorem getRoot_exports (s : BState) :
    (getRoot s).2.pendingExports = s.pendingExports := by
  obtain ⟨dag, root, pl, pe⟩ := s
  cases pl <;> rfl

theorem getRoot_loads_empty (s : BState) :
    (getRoot s).2.pendingLoads = [] := by
  obtain ⟨dag, root, pl, pe⟩ := s
  cases pl <;> rfl

theorem getRoot_root (s : BState) : (getRoot s).2.root = (getRoot s).1 := by
  obtain ⟨dag, root, pl, pe⟩ := s
  cases pl <;> rfl

theorem stepOp_dag (s : BState) (op : MOp) :
    ∃ e, (stepOp s op).2.dag = s.dag ++ e := by
  obtain ⟨e1, he1⟩ := getRoot_dag s
  cases op with
  | load a => exact ⟨[NodeK.load a s.root], rfl⟩
  | vload a =>
    refine ⟨e1 ++ [NodeK.load a (getRoot s).1], ?_⟩
    show (getRoot s).2.dag ++ _ = _
    rw [he1, List.append_assoc]
  | store a =>
    refine ⟨e1 ++ [NodeK.store a (getRoot s).1], ?_⟩
    show (getRoot s).2.dag ++ _ = _
    rw [he1, List.append_assoc]

theorem runOps_dag (ops : List MOp) :
    ∀ s : BState, ∃ e, (runOps s ops).1.dag = s.dag ++ e := by
  induction ops with
  | nil => intro s; exact ⟨[], by simp [runOps]⟩
  | cons op rest ih =>
    intro s
    obtain ⟨e1, he1⟩ := stepOp_dag s op
    obtain ⟨e2, he2⟩ := ih (stepOp s op).2
    exact ⟨e1 ++ e2, by simp [runOps, he2, he1, List.append_assoc]⟩

theorem stepOp_inv (s : BState) (LS : List Nat) (op : MOp) (h : Inv s LS) :
    Inv (stepOp s op).2
      (LS ++ if isLoadOp op then [(stepOp s op).1] else []) ∧
    (isFlushOp op = true →
      ∀ l2 ∈ LS, Reach (stepOp s op).2.dag (stepOp s op).1 l2) := by
  obtain ⟨hroot, hpend, hls⟩ := h
  cases op with
  | load a =>
    have hs : (stepOp s (MOp.load a)).2 =
        ⟨s.dag ++ [NodeK.load a s.root], s.root,
         s.pendingLoads ++ [s.dag.length], s.pendingExports⟩ := rfl
    have hid : (stepOp s (MOp.load a)).1 = s.dag.length := rfl
    rw [hs, hid]
    rw [show (if isLoadOp (MOp.load a) = true then [s.dag.length] else []) =
      [s.dag.length] from rfl]
    constructor
    · refine ⟨?_, ?_, ?_⟩
      · simp
        omega
      · intro l2 hl2
        simp only [List.mem_append, List.mem_singleton] at hl2
        rcases hl2 with hl2 | hl2
        · obtain ⟨hlt, a2, hnode⟩ := hpend l2 hl2
          refine ⟨by simp; omega, a2, ?_⟩
          show nodeAt (s.dag ++ [NodeK.load a s.root]) l2 = _
          rw [nodeAt, List.getD_append _ _ _ _ hlt]
          exact hnode
        · subst hl2
          refine ⟨by simp, a, ?_⟩
          show nodeAt (s.dag ++ [NodeK.load a s.root]) s.dag.length = _
          rw [nodeAt, List.getD_append_right _ _ _ _ (Nat.le_refl _)]
          simp
      · intro l2 hl2
        rcases List.mem_append.mp hl2 with hl2 | hl2
        · rcases hls l2 hl2 with hmem | hr
          · left
            exact List.mem_append_left _ hmem
          · right
            exact hr.mono
        · left
          simp only [List.mem_singleton] at hl2
          subst hl2
          simp
    · intro hf
      simp [isFlushOp] at hf
  | vload a =>
    obtain ⟨hp1, hp2, hp3, ⟨e1, he1⟩, hp5, hp6⟩ :=
      getRoot_flush s LS ⟨hroot, hpend, hls⟩
    have hs : (stepOp s (MOp.vload a)).2 =
        ⟨(getRoot s).2.dag ++ [NodeK.load a (getRoot s).1],
         (getRoot s).2.dag.length, (getRoot s).2.pendingLoads,
         (getRoot s).2.pendingExports⟩ := rfl
    have hid : (stepOp s (MOp.vload a)).1 = (getRoot s).2.dag.length := rfl
    have hnode : nodeAt ((getRoot s).2.dag ++ [NodeK.load a (getRoot s).1])
        (getRoot s).2.dag.length = NodeK.load a (getRoot s).1 := by
      rw [nodeAt, List.getD_append_right _ _ _ _ (Nat.le_refl _)]
      simp
    have hreach : ∀ l2 ∈ LS,
        Reach ((getRoot s).2.dag ++ [NodeK.load a (getRoot s).1])
          (getRoot s).2.dag.length l2 := by
      intro l2 hl2
      refine Reach.step
        (show (getRoot s).1 ∈ _ by rw [hnode]; simp [chainOps]) ?_
      exact (hp6 l2 hl2).mono
    rw [hs, hid]
    rw [show (if isLoadOp (MOp.vload a) = true
        then [(getRoot s).2.dag.length] else []) =
      [(getRoot s).2.dag.length] from rfl]
    constructor
    · refine ⟨?_, ?_, ?_⟩
      · simp
      · intro l2 hl2
        rw [hp1] at hl2
        simp at hl2
      · intro l2 hl2
        rcases List.mem_append.mp hl2 with hl2 | hl2
        · right
          exact hreach l2 hl2
        · right
          simp only [List.mem_singleton] at hl2
          subst hl2
          exact Reach.refl _
    · intro _ l2 hl2
      exact hreach l2 hl2
  | store a =>
    obtain ⟨hp1, hp2, hp3, ⟨e1, he1⟩, hp5, hp6⟩ :=
      getRoot_flush s LS ⟨hroot, hpend, hls⟩
    have hs : (stepOp s (MOp.store a)).2 =
        ⟨(getRoot s).2.dag ++ [NodeK.store a (getRoot s).1],
         (getRoot s).2.dag.length, (getRoot s).2.pendingLoads,
         (getRoot s).2.pendingExports⟩ := rfl
    have hid : (stepOp s (MOp.store a)).1 = (getRoot s).2.dag.length := rfl
    have hnode : nodeAt ((getRoot s).2.dag ++ [NodeK.store a (getRoot s).1])
        (getRoot s).2.dag.length = NodeK.store a (getRoot s).1 := by
      rw [nodeAt, List.getD_append_right _ _ _ _ (Nat.le_refl _)]
      simp
    have hreach : ∀ l2 ∈ LS,
        Reach ((getRoot s).2.dag ++ [NodeK.store a (getRoot s).1])
          (getRoot s).2.dag.length l2 := by
      intro l2 hl2
      refine Reach.step
        (show (getRoot s).1 ∈ _ by rw [hnode]; simp [chainOps]) ?_
      exact (hp6 l2 hl2).mono
    rw [hs, hid]
    rw [show (if isLoadOp (MOp.store a) = true
        then [(getRoot s).2.dag.length] else []) = ([] : List Nat) from rfl]
    rw [List.append_nil]
    constructor
    · refine ⟨?_, ?_, ?_⟩
      · simp
      · intro l2 hl2
        rw [hp1] at hl2
        simp at hl2
      · intro l2 hl2
        right
        exact hreach l2 hl2
    · intro _ l2 hl2
      exact hreach l2 hl2

theorem runOps_orders (ops : List MOp) :
    ∀ (s : BState) (LS : List Nat), Inv s LS →
      (∀ j oj, ops[j]? = some oj → isFlushOp oj = true →
        ∀ l2 ∈ LS,
          Reach (runOps s ops).1.dag ((runOps s ops).2.getD j 0) l2) ∧
      (∀ i j oi oj, i < j → ops[i]? = some oi → isLoadOp oi = true →
        ops[j]? = some oj → isFlushOp oj = true →
        Reach (runOps s ops).1.dag ((runOps s ops).2.getD j 0)
          ((runOps s ops).2.getD i 0)) := by
  induction ops with
  | nil =>
    intro s LS _
    constructor
    · intro j oj hj
      simp at hj
    · intro i j oi oj _ hi
      simp at hi
  | cons op rest ih =>
    intro s LS hInv
    obtain ⟨hInv2, hflush⟩ := stepOp_inv s LS op hInv
    obtain ⟨e2, he2⟩ := runOps_dag rest (stepOp s op).2
    have hfst : (runOps s (op :: rest)).1 = (runOps (stepOp s op).2 rest).1 := rfl
    have hsnd : (runOps s (op :: rest)).2 =
        (stepOp s op).1 :: (runOps (stepOp s op).2 rest).2 := rfl
    have ihA := (ih (stepOp s op).2
      (LS ++ if isLoadOp op then [(stepOp s op).1] else []) hInv2).1
    have ihB := (ih (stepOp s op).2
      (LS ++ if isLoadOp op then [(stepOp s op).1] else []) hInv2).2
    constructor
    · intro j oj hj hfj l2 hl2
      cases j with
      | zero =>
        simp only [List.getElem?_cons_zero, Option.some.injEq] at hj
        subst hj
        rw [hfst, hsnd]
        simp only [List.getD_cons_zero]
        rw [he2]
        exact (hflush hfj l2 hl2).mono
      | succ j =>
        rw [hfst, hsnd]
        simp only [List.getD_cons_succ]
        exact ihA j oj (by simpa using hj) hfj l2 (List.mem_append_left _ hl2)
    · intro i j oi oj hij hi hLi hj hFj
      cases i with
      | zero =>
        simp only [List.getElem?_cons_zero, Option.some.injEq] at hi
        subst hi
        cases j with
        | zero => omega
        | succ j =>
          rw [hfst, hsnd]
          simp only [List.getD_cons_succ, List.getD_cons_zero]
          refine ihA j oj (by simpa using hj) hFj (stepOp s op).1 ?_
          rw [hLi]
          simp
      | succ i =>
        cases j with
        | zero => omega
        | succ j =>
          rw [hfst, hsnd]
          simp only [List.getD_cons_succ]
          exact ihB i j oi oj (by omega) (by simpa using hi) hLi
            (by simpa using hj) hFj

theorem initState_inv : Inv initState [] := by
  refine ⟨by simp [initState], ?_, ?_⟩ <;> simp [initState]

/-- Claim C2: within one block, for every store (or volatile/atomic load) S
and every load L preceding S in source order, the ordering token reachable
from the memory-dependency (chain) edge of the node emitted for S
transitively includes the node emitted for L: the flushing operation merges
the whole PendingLoads buffer into one token-factor and threads through it.
The program is universally quantified, so the property holds regardless of
the relative order of the independent prior loads. -/
theorem store_orders_after_pending_loads (prog : List MOp) (i j : Nat)
    (oi oj : MOp) (hij : i < j)
    (hi : prog[i]? = some oi) (hLi : isLoadOp oi = true)
    (hj : prog[j]? = some oj) (hFj : isFlushOp oj = true) :
    Reach (runOps initState prog).1.dag
      ((runOps initState prog).2.getD j 0)
      ((runOps initState prog).2.getD i 0) :=
  (runOps_orders prog initState [] initState_inv).2 i j oi oj hij hi hLi hj hFj

/-- Claim C2 witness: in the block [load 5, load 6, store 7], the store node
is chain-ordered after the first load node. -/
theorem store_orders_after_pending_loads_witness :
    isLoadOp (MOp.load 5) = true ∧
    Reach (runOps initState [MOp.load 5, MOp.load 6, MOp.store 7]).1.dag
      ((runOps initState [MOp.load 5, MOp.load 6, MOp.store 7]).2.getD 2 0)
      ((runOps initState [MOp.load 5, MOp.load 6, MOp.store 7]).2.getD 0 0) :=
  ⟨rfl,
   store_orders_after_pending_loads [MOp.load 5, MOp.load 6, MOp.store 7]
     0 2 (MOp.load 5) (MOp.store 7) (by decide) rfl rfl rfl rfl⟩

/-- Claim C7: getRoot flushes the PendingLoads buffer into a single ordering
token, makes it the current root and returns it, while leaving PendingExports
untouched (getRoot never observes un-flushed exports); getControlRoot applies
getRoot's effect first and then flushes PendingExports, so its token orders
both every pending export and every pending load, and after it no pending
loads or exports remain before the terminator. -/
theorem roots_flush_contract (s : BState) :
    ((getRoot s).2.pendingLoads = [] ∧
     (getRoot s).2.root = (getRoot s).1 ∧
     (getRoot s).2.pendingExports = s.pendingExports ∧
     (∀ l2 ∈ s.pendingLoads, Reach (getRoot s).2.dag (getRoot s).1 l2)) ∧
    ((getControlRoot s).2.pendingLoads = [] ∧
     (getControlRoot s).2.pendingExports = [] ∧
     (getControlRoot s).2.root = (getControlRoot s).1 ∧
     (∀ e2 ∈ s.pendingExports,
       Reach (getControlRoot s).2.dag (getControlRoot s).1 e2) ∧
     (∀ l2 ∈ s.pendingLoads,
       Reach (getControlRoot s).2.dag (getControlRoot s).1 l2)) := by
  refine ⟨⟨getRoot_loads_empty s, getRoot_root s, getRoot_exports s,
    getRoot_pending_reach s⟩, ?_⟩
  by_cases hE : (getRoot s).2.pendingExports.isEmpty
  · have hgc : getControlRoot s = getRoot s := by
      simp only [getControlRoot]
      rw [if_pos hE]
    have hnil : s.pendingExports = [] := by
      rw [← getRoot_exports s]
      exact List.isEmpty_iff.mp hE
    rw [hgc]
    refine ⟨getRoot_loads_empty s, ?_, getRoot_root s, ?_, getRoot_pending_reach s⟩
    · rw [getRoot_exports s, hnil]
    · intro e2 he2
      rw [hnil] at he2
      simp at he2
  · have hgc : getControlRoot s =
        ((getRoot s).2.dag.length,
         ⟨(getRoot s).2.dag ++
            [NodeK.tokenFactor ((getRoot s).1 :: (getRoot s).2.pendingExports)],
          (getRoot s).2.dag.length, (getRoot s).2.pendingLoads, []⟩) := by
      simp only [getControlRoot]
      rw [if_neg hE]
    have htf : nodeAt
        ((getRoot s).2.dag ++
          [NodeK.tokenFactor ((getRoot s).1 :: (getRoot s).2.pendingExports)])
        (getRoot s).2.dag.length =
        NodeK.tokenFactor ((getRoot s).1 :: (getRoot s).2.pendingExports) := by
      rw [nodeAt, List.getD_append_right _ _ _ _ (Nat.le_refl _)]
      simp
    rw [hgc]
    refine ⟨getRoot_loads_empty s, rfl, rfl, ?_, ?_⟩
    · intro e2 he2
      rw [← getRoot_exports s] at he2
      refine Reach.step ?_ (Reach.refl e2)
      rw [htf]
      simp only [chainOps]
      exact List.mem_cons_of_mem _ he2
    · intro l2 hl2
      refine Reach.step
        (show (getRoot s).1 ∈ _ by rw [htf]; simp [chainOps]) ?_
      exact (getRoot_pending_reach s l2 hl2).mono

/-- Claim C7 witness: from a state with one pending load and one pending
export, getControlRoot leaves both buffers empty and its token orders the
pending load. -/
theorem roots_flush_contract_witness :
    (1 : Nat) ∈ ((CopyToExportRegs (visitLoad initState 100).2 5).2).pendingLoads ∧
    (getControlRoot ((CopyToExportRegs (visitLoad initState 100).2 5).2)).2.pendingExports = [] ∧
    Reach (getControlRoot ((CopyToExportRegs (visitLoad initState 100).2 5).2)).2.dag
      (getControlRoot ((CopyToExportRegs (visitLoad initState 100).2 5).2)).1 1 :=
  ⟨by decide,
   (roots_flush_contract ((CopyToExportRegs (visitLoad initState 100).2 5).2)).2.2.1,
   (roots_flush_contract ((CopyToExportRegs (visitLoad initState 100).2 5).2)).2.2.2.2.2
     1 (by decide)⟩

/-! ## Switch case clustering (Clusterify, header line 202) -/

/-- A switch case after constant extraction: a closed signed value range
[lo, hi] (the signed values of the Low/High ConstantInts), the destination
machine basic block, and the uint32 edge-weight hint (header lines
129-147). -/
structure SCase where
  lo : Int
  hi : Int
  bb : Nat
  weight : Nat
deriving DecidableEq, Repr

/-- Modulus of the unsigned 32-bit weight arithmetic. -/
def W32 : Nat := 2 ^ 32

/-- Insert one case into a list sorted by lower bound. -/
def insertByLo (c : SCase) : List SCase → List SCase
  | [] => [c]
  | d :: rest => if c.lo ≤ d.lo then c :: d :: rest else d :: insertByLo c rest

/-- Sort cases by lower bound (insertion sort). -/
def sortByLo : List SCase → List SCase
  | [] => []
  | c :: rest => insertByLo c (sortByLo rest)

/-- Merge adjacent ranges with identical destination and weight into a
single range; weights propagate additively (unsigned 32-bit). -/
def mergeAdjacent : List SCase → List SCase
  | [] => []
  | [c] => [c]
  | a :: b :: rest =>
    if a.hi + 1 = b.lo ∧ a.bb = b.bb ∧ a.weight = b.weight then
      mergeAdjacent (⟨a.lo, b.hi, a.bb, (a.weight + b.weight) % W32⟩ :: rest)
    else
      a :: mergeAdjacent (b :: rest)
termination_by cs => cs.length
decreasing_by
  all_goals simp

/-- Modelled from the spec: the body of Clusterify is not in the sources
(only its declaration, header line 202); per spec 4.3 it sorts the case
ranges by lower bound and merges adjacent ranges with identical destination
and weight, producing a minimal disjoint sorted case list. -/
def Clusterify (cs : List SCase) : List SCase := mergeAdjacent (sortByLo cs)

/-- Check a relation on every pair of consecutive cases. -/
def chainB (p : SCase → SCase → Bool) : List SCase → Bool
  | [] => true
  | [_] => true
  | a :: b :: rest => p a b && chainB p (b :: rest)

/-- Sorted and disjoint: each range ends strictly before the next begins. -/
def sortedDisjB (cs : List SCase) : Bool :=
  chainB (fun a b => decide (a.hi < b.lo)) cs

/-- Well-formed: every range is nonempty. -/
def wfB (cs : List SCase) : Bool := cs.all fun c => decide (c.lo ≤ c.hi)

/-- Fully merged: no two consecutive cases are adjacent with identical
destination and weight. -/
def mergedB (cs : List SCase) : Bool :=
  chainB
    (fun a b => decide (¬(a.hi + 1 = b.lo ∧ a.bb = b.bb ∧ a.weight = b.weight)))
    cs

theorem sortByLo_sorted_id :
    ∀ cs : List SCase, chainB (fun a b => decide (a.lo ≤ b.lo)) cs = true →
      sortByLo cs = cs := by
  intro cs
  induction cs with
  | nil => intro _; rfl
  | cons c rest ih =>
    intro h
    cases rest with
    | nil => rfl
    | cons d rest2 =>
      simp only [chainB, Bool.and_eq_true, decide_eq_true_eq] at h
      have ih2 : sortByLo (d :: rest2) = d :: rest2 := ih h.2
      show insertByLo c (sortByLo (d :: rest2)) = c :: d :: rest2
      rw [ih2]
      simp [insertByLo, h.1]

theorem mergeAdjacent_of_merged :
    ∀ cs : List SCase, mergedB cs = true → mergeAdjacent cs = cs := by
  intro cs
  induction cs with
  | nil => intro _; simp [mergeAdjacent]
  | cons a rest ih =>
    intro h
    cases rest with
    | nil => simp [mergeAdjacent]
    | cons b rest2 =>
      simp only [mergedB, chainB, Bool.and_eq_true, decide_eq_true_eq] at h
      rw [mergeAdjacent, if_neg h.1]
      congr 1
      exact ih h.2

theorem sorted_wf_lo_le :
    ∀ cs : List SCase, sortedDisjB cs = true → wfB cs = true →
      chainB (fun a b => decide (a.lo ≤ b.lo)) cs = true := by
  intro cs
  induction cs with
  | nil => intro _ _; rfl
  | cons a rest ih =>
    intro hs hw
    cases rest with
    | nil => rfl
    | cons b rest2 =>
      simp only [sortedDisjB, chainB, Bool.and_eq_true, decide_eq_true_eq] at hs
      simp only [wfB, List.all_cons, Bool.and_eq_true, decide_eq_true_eq] at hw
      simp only [chainB, Bool.and_eq_true, decide_eq_true_eq]
      refine ⟨by omega, ?_⟩
      apply ih
      · exact hs.2
      · simp only [wfB, List.all_cons, Bool.and_eq_true, decide_eq_true_eq]
        exact ⟨hw.2.1, hw.2.2⟩

/-- Claim C6: Clusterify is the identity on its own kind of output: on a
case list that is already merged, sorted by lower bound and disjoint,
running the sort-and-merge again yields the identical list, with the same
ranges, destinations and weights. -/
theorem clusterify_identity_on_merged (cs : List SCase)
    (hs : sortedDisjB cs = true) (hw : wfB cs = true)
    (hm : mergedB cs = true) : Clusterify cs = cs := by
  unfold Clusterify
  rw [sortByLo_sorted_id cs (sorted_wf_lo_le cs hs hw),
    mergeAdjacent_of_merged cs hm]

/-- Claim C6 witness: a concrete merged, sorted, disjoint two-case list is
returned unchanged. -/
theorem clusterify_identity_on_merged_witness :
    Clusterify [⟨0, 2, 1, 10⟩, ⟨10, 20, 2, 20⟩] =
      [⟨0, 2, 1, 10⟩, ⟨10, 20, 2, 20⟩] :=
  clusterify_identity_on_merged [⟨0, 2, 1, 10⟩, ⟨10, 20, 2, 20⟩]
    (by decide) (by decide) (by decide)

/-! ## Switch decomposition (visitSwitch helpers, header lines 640-694) -/

/-- Reference semantics: naive linear scan of the case list; the first case
whose range contains x gives the destination, otherwise the default. -/
def lscan (cs : List SCase) (dflt : Nat) (x : Int) : Nat :=
  match cs with
  | [] => dflt
  | c :: rest => if c.lo ≤ x ∧ x ≤ c.hi then c.bb else lscan rest dflt x

/-- Lower bound of a sub-range: the first case's lower bound. -/
def firstLo (cs : List SCase) : Int :=
  match cs with
  | [] => 0
  | c :: _ => c.lo

/-- Upper bound of a sub-range: the last case's upper bound. -/
def lastHi (cs : List SCase) : Int :=
  match cs with
  | [] => -1
  | [c] => c.hi
  | _ :: b :: rest => lastHi (b :: rest)

/-- The jump-table contents for a contiguous sub-range: one destination
block per value between firstLo and lastHi, the owning case's target for
covered values and the default for holes. -/
def tableEntries (cs : List SCase) (dflt : Nat) : List Nat :=
  (List.range (lastHi cs - firstLo cs + 1).toNat).map
    (fun (k : Nat) => lscan cs dflt (firstLo cs + (k : Int)))

/-- Route a value through the emitted jump table: the bounds check of the
jump-table header, then the indexed indirect branch through the table. -/
def routeTable (cs : List SCase) (dflt : Nat) (x : Int) : Nat :=
  if firstLo cs ≤ x ∧ x ≤ lastHi cs then
    (tableEntries cs dflt).getD (x - firstLo cs).toNat dflt
  else dflt

/-- Bitmask with bits lo..hi (inclusive) set. -/
def maskRange (lo hi : Nat) : Nat :=
  (List.range (hi + 1 - lo)).foldl (fun m k => m ||| 2 ^ (lo + k)) 0

/-- One emitted bit test: a bitmask, its target block and the accumulated
uint32 weight (struct BitTestCase, header lines 262-270). -/
structure BTCase where
  Mask : Nat
  TargetBB : Nat
  ExtraWeight : Nat
deriving DecidableEq, Repr

/-- Add one case's bits and weight to the record of its destination,
creating the record when absent (uint32 weight arithmetic). -/
def addCaseBits (gs : List BTCase) (mask bb w : Nat) : List BTCase :=
  match gs with
  | [] => [⟨mask, bb, w⟩]
  | g :: rest =>
    if g.TargetBB = bb then
      ⟨g.Mask ||| mask, bb, (g.ExtraWeight + w) % W32⟩ :: rest
    else g :: addCaseBits rest mask bb w

/-- Group the cases of a sub-range by destination into bit-test records,
with bit positions relative to the sub-range base. -/
def buildBT (first : Int) (cs : List SCase) : List BTCase :=
  cs.foldl
    (fun gs c =>
      addCaseBits gs (maskRange (c.lo - first).toNat (c.hi - first).toNat)
        c.bb c.weight)
    []

/-- Route a bit offset through the emitted test sequence: the first test
whose mask covers the bit branches to its target, else the default. -/
def btFind (gs : List BTCase) (i : Nat) (dflt : Nat) : Nat :=
  match gs with
  | [] => dflt
  | g :: rest => if g.Mask.testBit i then g.TargetBB else btFind rest i dflt

/-- Route a value through the emitted bit-test block: the header's range
check, then the bitmask tests. -/
def routeBT (cs : List SCase) (dflt : Nat) (x : Int) : Nat :=
  if firstLo cs ≤ x ∧ x ≤ lastHi cs then
    btFind (buildBT (firstLo cs) cs) (x - firstLo cs).toNat dflt
  else dflt

/-- The decision structure emitted for one switch.  smallRange stands for
the compare-and-branch chain of handleSmallSwitchRange; jt for the jump
table of handleJTSwitchCase; bt for the bit-test block of
handleBitTestsSwitchCase; split for the pivot compare emitted by
handleBTSplitSwitchCase, whose two children inherit the tightened LT/GE
bounds. -/
inductive DTree where
  | smallRange (cases : List SCase) (dflt : Nat) : DTree
  | jt (cases : List SCase) (dflt : Nat) : DTree
  | bt (cases : List SCase) (dflt : Nat) : DTree
  | split (pivot : Int) (lt ge : DTree) : DTree
deriving Repr

/-- Route a concrete input value through the decision structure. -/
def DTree.route : DTree → Int → Nat
  | DTree.smallRange cs d, x => lscan cs d x
  | DTree.jt cs d, x => routeTable cs d x
  | DTree.bt cs d, x => routeBT cs d x
  | DTree.split p l r, x => if x < p then l.route x else r.route x

/-- Total number of values covered by a sub-range (density numerator). -/
def coverage (cs : List SCase) : Int :=
  (cs.map (fun c => c.hi - c.lo + 1)).sum

/-- Modelled from the spec: the bodies of visitSwitch and its four helpers
(handleSmallSwitchRange, handleJTSwitchCase, handleBitTestsSwitchCase,
handleBTSplitSwitchCase) are not in the sources; per spec 4.3 the work-list
recursion picks, per sub-range: a compare chain for a handful of cases; a
bit-test block when the sub-range spans at most a machine word of bit
positions; a jump table when the sub-range is dense enough; otherwise a
pivot case whose single less-than compare splits the sub-range in two.  The
exact threshold constants are implementation-defined policy (spec 9). -/
def decompose (cs : List SCase) (dflt : Nat) : DTree :=
  if h3 : cs.length ≤ 3 then DTree.smallRange cs dflt
  else if lastHi cs - firstLo cs + 1 ≤ 64 then DTree.bt cs dflt
  else if 4 * (lastHi cs - firstLo cs + 1) ≤ 10 * coverage cs then
    DTree.jt cs dflt
  else
    DTree.split (firstLo (cs.drop (cs.length / 2)))
      (decompose (cs.take (cs.length / 2)) dflt)
      (decompose (cs.drop (cs.length / 2)) dflt)
termination_by cs.length
decreasing_by
  · simp only [List.length_take]
    omega
  · simp only [List.length_drop]
    omega

/-- The edge weights on the leaves of the emitted decision structure: one
CaseBlock weight per case of a compare chain, one successor-edge weight per
case of a jump table, and one accumulated ExtraWeight per BitTestCase record
of a bit-test block. -/
def leafWeights : DTree → List Nat
  | DTree.smallRange cs _ => cs.map (fun c => c.weight)
  | DTree.jt cs _ => cs.map (fun c => c.weight)
  | DTree.bt cs _ => (buildBT (firstLo cs) cs).map (fun g => g.ExtraWeight)
  | DTree.split _ l r => leafWeights l ++ leafWeights r

theorem chainB_tail (p : SCase → SCase → Bool) :
    ∀ (a : SCase) (l : List SCase), chainB p (a :: l) = true →
      chainB p l = true := by
  intro a l h
  cases l with
  | nil => rfl
  | cons b l2 =>
    simp only [chainB, Bool.and_eq_true] at h
    exact h.2

theorem chainB_head (p : SCase → SCase → Bool) (a b : SCase) (l : List SCase)
    (h : chainB p (a :: b :: l) = true) : p a b = true := by
  simp only [chainB, Bool.and_eq_true] at h
  exact h.1

theorem wfB_of_mem (cs : List SCase) (hw : wfB cs = true) (c : SCase)
    (hc : c ∈ cs) : c.lo ≤ c.hi := by
  have := List.all_eq_true.mp hw c hc
  exact of_decide_eq_true this

theorem wfB_of_sub (cs l : List SCase) (hsub : ∀ c ∈ l, c ∈ cs)
    (hw : wfB cs = true) : wfB l = true := by
  apply List.all_eq_true.mpr
  intro c hc
  exact List.all_eq_true.mp hw c (hsub c hc)

theorem head_hi_lt :
    ∀ (l : List SCase) (a : SCase), sortedDisjB (a :: l) = true →
      wfB (a :: l) = true → ∀ c ∈ l, a.hi < c.lo := by
  intro l
  induction l with
  | nil => intro a _ _ c hc; simp at hc
  | cons b l2 ih =>
    intro a hs hw c hc
    have hab : a.hi < b.lo :=
      of_decide_eq_true (chainB_head _ a b l2 hs)
    rcases List.mem_cons.mp hc with rfl | hc2
    · exact hab
    · have hbw : b.lo ≤ b.hi := wfB_of_mem _ hw b (by simp)
      have hs2 : sortedDisjB (b :: l2) = true := chainB_tail _ a _ hs
      have hw2 : wfB (b :: l2) = true :=
        wfB_of_sub _ _ (fun c2 hc2 => List.mem_cons_of_mem a hc2) hw
      have := ih b hs2 hw2 c hc2
      omega

theorem sortedDisjB_append_left :
    ∀ (A B : List SCase), sortedDisjB (A ++ B) = true →
      sortedDisjB A = true := by
  intro A
  induction A with
  | nil => intro B _; rfl
  | cons a A2 ih =>
    intro B h
    cases A2 with
    | nil => rfl
    | cons b A3 =>
      have hab : decide (a.hi < b.lo) = true := chainB_head _ a b (A3 ++ B) h
      have htail : sortedDisjB ((b :: A3) ++ B) = true := chainB_tail _ a _ h
      have := ih B htail
      simp only [sortedDisjB, chainB, Bool.and_eq_true]
      exact ⟨hab, this⟩

theorem sortedDisjB_append_right :
    ∀ (A B : List SCase), sortedDisjB (A ++ B) = true →
      sortedDisjB B = true := by
  intro A
  induction A with
  | nil => intro B h; exact h
  | cons a A2 ih =>
    intro B h
    exact ih B (chainB_tail _ a _ h)

theorem sorted_cross :
    ∀ (A B : List SCase), sortedDisjB (A ++ B) = true →
      wfB (A ++ B) = true → ∀ a ∈ A, ∀ b ∈ B, a.hi < b.lo := by
  intro A
  induction A with
  | nil => intro B _ _ a ha; simp at ha
  | cons hd A2 ih =>
    intro B hs hw a ha b hb
    rcases List.mem_cons.mp ha with rfl | ha2
    · exact head_hi_lt (A2 ++ B) a hs hw b (List.mem_append_right A2 hb)
    · refine ih B (chainB_tail _ hd _ hs) ?_ a ha2 b hb
      exact wfB_of_sub _ _ (fun c hc => List.mem_cons_of_mem hd hc) hw

theorem lscan_of_no_cover :
    ∀ (cs : List SCase) (d : Nat) (x : Int),
      (∀ c ∈ cs, ¬(c.lo ≤ x ∧ x ≤ c.hi)) → lscan cs d x = d := by
  intro cs
  induction cs with
  | nil => intro d x _; rfl
  | cons c rest ih =>
    intro d x h
    show (if c.lo ≤ x ∧ x ≤ c.hi then c.bb else lscan rest d x) = d
    rw [if_neg (h c (by simp))]
    exact ih d x (fun c2 hc2 => h c2 (List.mem_cons_of_mem c hc2))

theorem lscan_append_of_none_left :
    ∀ (A B : List SCase) (d : Nat) (x : Int),
      (∀ c ∈ A, ¬(c.lo ≤ x ∧ x ≤ c.hi)) →
      lscan (A ++ B) d x = lscan B d x := by
  intro A
  induction A with
  | nil => intro B d x _; rfl
  | cons a A2 ih =>
    intro B d x h
    show (if a.lo ≤ x ∧ x ≤ a.hi then a.bb else lscan (A2 ++ B) d x) = _
    rw [if_neg (h a (by simp))]
    exact ih B d x (fun c hc => h c (List.mem_cons_of_mem a hc))

theorem lscan_append_of_none_right :
    ∀ (A B : List SCase) (d : Nat) (x : Int),
      (∀ c ∈ B, ¬(c.lo ≤ x ∧ x ≤ c.hi)) →
      lscan (A ++ B) d x = lscan A d x := by
  intro A
  induction A with
  | nil => intro B d x h; exact lscan_of_no_cover B d x h
  | cons a A2 ih =>
    intro B d x h
    show (if a.lo ≤ x ∧ x ≤ a.hi then a.bb else lscan (A2 ++ B) d x) =
      (if a.lo ≤ x ∧ x ≤ a.hi then a.bb else lscan A2 d x)
    by_cases hc : a.lo ≤ x ∧ x ≤ a.hi
    · rw [if_pos hc, if_pos hc]
    · rw [if_neg hc, if_neg hc]
      exact ih B d x h

theorem lscan_cover :
    ∀ (cs : List SCase) (d : Nat) (x : Int), sortedDisjB cs = true →
      wfB cs = true → ∀ c ∈ cs, c.lo ≤ x → x ≤ c.hi →
      lscan cs d x = c.bb := by
  intro cs
  induction cs with
  | nil => intro d x _ _ c hc; simp at hc
  | cons hd rest ih =>
    intro d x hs hw c hc hlo hhi
    show (if hd.lo ≤ x ∧ x ≤ hd.hi then hd.bb else lscan rest d x) = c.bb
    rcases List.mem_cons.mp hc with rfl | hc2
    · rw [if_pos ⟨hlo, hhi⟩]
    · have hlt : hd.hi < c.lo := head_hi_lt rest hd hs hw c hc2
      rw [if_neg (by omega)]
      refine ih d x (chainB_tail _ hd _ hs) ?_ c hc2 hlo hhi
      exact wfB_of_sub _ _ (fun c2 h2 => List.mem_cons_of_mem hd h2) hw

theorem firstLo_le (cs : List SCase) (hs : sortedDisjB cs = true)
    (hw : wfB cs = true) (c : SCase) (hc : c ∈ cs) : firstLo cs ≤ c.lo := by
  cases cs with
  | nil => simp at hc
  | cons hd rest =>
    show hd.lo ≤ c.lo
    rcases List.mem_cons.mp hc with rfl | hc2
    · exact le_refl _
    · have h1 : hd.hi < c.lo := head_hi_lt rest hd hs hw c hc2
      have h2 : hd.lo ≤ hd.hi := wfB_of_mem _ hw hd (by simp)
      omega

theorem le_lastHi :
    ∀ (cs : List SCase), sortedDisjB cs = true → wfB cs = true →
      ∀ c ∈ cs, c.hi ≤ lastHi cs := by
  intro cs
  induction cs with
  | nil => intro _ _ c hc; simp at hc
  | cons a rest ih =>
    intro hs hw c hc
    cases rest with
    | nil =>
      rcases List.mem_cons.mp hc with rfl | hc2
      · exact le_refl _
      · simp at hc2
    | cons b rest2 =>
      have hs2 : sortedDisjB (b :: rest2) = true := chainB_tail _ a _ hs
      have hw2 : wfB (b :: rest2) = true :=
        wfB_of_sub _ _ (fun c2 h2 => List.mem_cons_of_mem a h2) hw
      have hlast : lastHi (a :: b :: rest2) = lastHi (b :: rest2) := rfl
      rw [hlast]
      rcases List.mem_cons.mp hc with rfl | hc2
      · have h1 : c.hi < b.lo :=
          of_decide_eq_true (chainB_head _ c b rest2 hs)
        have h2 : b.lo ≤ b.hi := wfB_of_mem _ hw2 b (by simp)
        have h3 : b.hi ≤ lastHi (b :: rest2) := ih hs2 hw2 b (by simp)
        omega
      · exact ih hs2 hw2 c hc2

theorem lscan_out_of_range (cs : List SCase) (d : Nat) (x : Int)
    (hs : sortedDisjB cs = true) (hw : wfB cs = true)
    (hx : x < firstLo cs ∨ lastHi cs < x) : lscan cs d x = d := by
  apply lscan_of_no_cover
  intro c hc
  have h1 := firstLo_le cs hs hw c hc
  have h2 := le_lastHi cs hs hw c hc
  omega

theorem routeTable_correct (cs : List SCase) (d : Nat) (x : Int)
    (hs : sortedDisjB cs = true) (hw : wfB cs = true) :
    routeTable cs d x = lscan cs d x := by
  unfold routeTable
  by_cases hin : firstLo cs ≤ x ∧ x ≤ lastHi cs
  · rw [if_pos hin]
    unfold tableEntries
    rw [List.getD_eq_getElem?_getD, List.getElem?_map]
    have hidx : (x - firstLo cs).toNat < (lastHi cs - firstLo cs + 1).toNat := by
      omega
    rw [List.getElem?_range hidx]
    simp only [Option.map_some', Option.getD_some]
    congr 1
    omega
  · rw [if_neg hin]
    exact (lscan_out_of_range cs d x hs hw (by omega)).symm

theorem foldl_or_testBit (lo : Nat) :
    ∀ (n : Nat) (acc : Nat) (i : Nat),
      ((List.range n).foldl (fun m k => m ||| 2 ^ (lo + k)) acc).testBit i =
      (acc.testBit i || decide (lo ≤ i ∧ i < lo + n)) := by
  intro n
  induction n with
  | zero => intro acc i; simp
  | succ n ih =>
    intro acc i
    rw [List.range_succ, List.foldl_append]
    simp only [List.foldl_cons, List.foldl_nil]
    rw [Nat.testBit_or, ih, Nat.testBit_two_pow]
    have heq : (decide (lo ≤ i ∧ i < lo + n) || decide (lo + n = i)) =
        decide (lo ≤ i ∧ i < lo + (n + 1)) := by
      rw [← Bool.decide_or, decide_eq_decide]
      omega
    rw [Bool.or_assoc, heq]

theorem maskRange_testBit (lo hi i : Nat) :
    (maskRange lo hi).testBit i = decide (lo ≤ i ∧ i ≤ hi) := by
  unfold maskRange
  rw [foldl_or_testBit]
  simp only [Nat.zero_testBit, Bool.false_or]
  rw [decide_eq_decide]
  omega

theorem addCaseBits_bit :
    ∀ (gs : List BTCase) (mask bb w t i : Nat),
      (∃ g ∈ addCaseBits gs mask bb w,
        g.TargetBB = t ∧ g.Mask.testBit i = true) ↔
      ((∃ g ∈ gs, g.TargetBB = t ∧ g.Mask.testBit i = true) ∨
       (bb = t ∧ mask.testBit i = true)) := by
  intro gs
  induction gs with
  | nil =>
    intro mask bb w t i
    simp [addCaseBits]
  | cons g rest ih =>
    intro mask bb w t i
    by_cases hbb : g.TargetBB = bb
    · simp only [addCaseBits, if_pos hbb]
      constructor
      · rintro ⟨g2, hg2, ht, hbit⟩
        rcases List.mem_cons.mp hg2 with rfl | hg3
        · simp only at ht hbit
          rw [Nat.testBit_or] at hbit
          have hbit2 : g.Mask.testBit i = true ∨ mask.testBit i = true := by
            simpa using hbit
          rcases hbit2 with h | h
          · exact Or.inl ⟨g, List.mem_cons_self g rest, by rw [hbb]; exact ht, h⟩
          · exact Or.inr ⟨ht, h⟩
        · exact Or.inl ⟨g2, List.mem_cons_of_mem _ hg3, ht, hbit⟩
      · rintro (⟨g2, hg2, ht, hbit⟩ | ⟨ht, hbit⟩)
        · rcases List.mem_cons.mp hg2 with rfl | hg3
          · refine ⟨_, List.mem_cons_self _ _, ?_, ?_⟩
            · show bb = t
              rw [← hbb]; exact ht
            · show (g2.Mask ||| mask).testBit i = true
              rw [Nat.testBit_or, hbit, Bool.true_or]
          · exact ⟨g2, List.mem_cons_of_mem _ hg3, ht, hbit⟩
        · refine ⟨_, List.mem_cons_self _ _, ?_, ?_⟩
          · exact ht
          · show (g.Mask ||| mask).testBit i = true
            rw [Nat.testBit_or, hbit, Bool.or_true]
    · simp only [addCaseBits, if_neg hbb]
      simp only [List.mem_cons]
      constructor
      · rintro ⟨g2, hg2 | hg2, ht, hbit⟩
        · exact Or.inl ⟨g2, Or.inl hg2, ht, hbit⟩
        · rcases (ih mask bb w t i).mp ⟨g2, hg2, ht, hbit⟩ with h | h
          · obtain ⟨g3, hg3, ht3, hb3⟩ := h
            exact Or.inl ⟨g3, Or.inr hg3, ht3, hb3⟩
          · exact Or.inr h
      · rintro (⟨g2, hg2 | hg2, ht, hbit⟩ | ⟨ht, hbit⟩)
        · exact ⟨g2, Or.inl hg2, ht, hbit⟩
        · obtain ⟨g3, hg3, ht3, hb3⟩ :=
            (ih mask bb w t i).mpr (Or.inl ⟨g2, hg2, ht, hbit⟩)
          exact ⟨g3, Or.inr hg3, ht3, hb3⟩
        · obtain ⟨g3, hg3, ht3, hb3⟩ :=
            (ih mask bb w t i).mpr (Or.inr ⟨ht, hbit⟩)
          exact ⟨g3, Or.inr hg3, ht3, hb3⟩

theorem buildBT_fold_bit (first : Int) :
    ∀ (cs : List SCase) (gs : List BTCase) (t i : Nat),
      (∃ g ∈ cs.foldl
          (fun gs c =>
            addCaseBits gs
              (maskRange (c.lo - first).toNat (c.hi - first).toNat)
              c.bb c.weight) gs,
        g.TargetBB = t ∧ g.Mask.testBit i = true) ↔
      ((∃ g ∈ gs, g.TargetBB = t ∧ g.Mask.testBit i = true) ∨
       (∃ c ∈ cs, c.bb = t ∧
          (maskRange (c.lo - first).toNat (c.hi - first).toNat).testBit i =
            true)) := by
  intro cs
  induction cs with
  | nil =>
    intro gs t i
    simp
  | cons c rest ih =>
    intro gs t i
    simp only [List.foldl_cons]
    rw [ih, addCaseBits_bit]
    simp only [List.mem_cons]
    constructor
    · rintro ((⟨g, hg, ht, hb⟩ | ⟨ht, hb⟩) | ⟨c2, hc2, ht, hb⟩)
      · exact Or.inl ⟨g, hg, ht, hb⟩
      · exact Or.inr ⟨c, Or.inl rfl, ht, hb⟩
      · exact Or.inr ⟨c2, Or.inr hc2, ht, hb⟩
    · rintro (⟨g, hg, ht, hb⟩ | ⟨c2, hc2 | hc2, ht, hb⟩)
      · exact Or.inl (Or.inl ⟨g, hg, ht, hb⟩)
      · subst hc2
        exact Or.inl (Or.inr ⟨ht, hb⟩)
      · exact Or.inr ⟨c2, hc2, ht, hb⟩

theorem btFind_eq_of (t : Nat) :
    ∀ (gs : List BTCase) (i d : Nat),
      (∃ g ∈ gs, g.Mask.testBit i = true) →
      (∀ g ∈ gs, g.Mask.testBit i = true → g.TargetBB = t) →
      btFind gs i d = t := by
  intro gs
  induction gs with
  | nil => intro i d hex _; simp at hex
  | cons g rest ih =>
    intro i d hex huni
    show (if g.Mask.testBit i then g.TargetBB else btFind rest i d) = t
    by_cases hbit : g.Mask.testBit i
    · rw [if_pos hbit]
      exact huni g (by simp) hbit
    · rw [if_neg hbit]
      refine ih i d ?_ (fun g2 h2 hb2 => huni g2 (List.mem_cons_of_mem g h2) hb2)
      obtain ⟨g2, hg2, hb2⟩ := hex
      rcases List.mem_cons.mp hg2 with rfl | hg3
      · exact absurd hb2 hbit
      · exact ⟨g2, hg3, hb2⟩

theorem btFind_default :
    ∀ (gs : List BTCase) (i d : Nat),
      (∀ g ∈ gs, g.Mask.testBit i = false) → btFind gs i d = d := by
  intro gs
  induction gs with
  | nil => intro i d _; rfl
  | cons g rest ih =>
    intro i d h
    show (if g.Mask.testBit i then g.TargetBB else btFind rest i d) = d
    rw [if_neg (by simp [h g (by simp)])]
    exact ih i d (fun g2 h2 => h g2 (List.mem_cons_of_mem g h2))

theorem cover_unique (x : Int) :
    ∀ (cs : List SCase), sortedDisjB cs = true → wfB cs = true →
      ∀ c ∈ cs, ∀ c2 ∈ cs, c.lo ≤ x → x ≤ c.hi → c2.lo ≤ x → x ≤ c2.hi →
      c = c2 := by
  intro cs
  induction cs with
  | nil => intro _ _ c hc; simp at hc
  | cons hd rest ih =>
    intro hs hw c hc c2 hc2 h1 h2 h3 h4
    have hs2 : sortedDisjB rest = true := chainB_tail _ hd _ hs
    have hw2 : wfB rest = true :=
      wfB_of_sub _ _ (fun c3 h3 => List.mem_cons_of_mem hd h3) hw
    rcases List.mem_cons.mp hc with rfl | hcr
    · rcases List.mem_cons.mp hc2 with rfl | hcr2
      · rfl
      · have := head_hi_lt rest c hs hw c2 hcr2
        omega
    · rcases List.mem_cons.mp hc2 with rfl | hcr2
      · have := head_hi_lt rest c2 hs hw c hcr
        omega
      · exact ih hs2 hw2 c hcr c2 hcr2 h1 h2 h3 h4

theorem routeBT_correct (cs : List SCase) (d : Nat) (x : Int)
    (hs : sortedDisjB cs = true) (hw : wfB cs = true) :
    routeBT cs d x = lscan cs d x := by
  unfold routeBT
  by_cases hin : firstLo cs ≤ x ∧ x ≤ lastHi cs
  · rw [if_pos hin]
    have hbit : ∀ c ∈ cs,
        ((maskRange (c.lo - firstLo cs).toNat
          (c.hi - firstLo cs).toNat).testBit (x - firstLo cs).toNat = true ↔
         (c.lo ≤ x ∧ x ≤ c.hi)) := by
      intro c hc
      rw [maskRange_testBit, decide_eq_true_iff]
      have h1 := firstLo_le cs hs hw c hc
      have h2 := wfB_of_mem cs hw c hc
      omega
    by_cases hcov : ∃ c ∈ cs, c.lo ≤ x ∧ x ≤ c.hi
    · obtain ⟨c0, hc0, hcov0⟩ := hcov
      rw [lscan_cover cs d x hs hw c0 hc0 hcov0.1 hcov0.2]
      apply btFind_eq_of
      · obtain ⟨g, hg, _, hgbit⟩ :=
          (buildBT_fold_bit (firstLo cs) cs [] c0.bb
            ((x - firstLo cs).toNat)).mpr
            (Or.inr ⟨c0, hc0, rfl, (hbit c0 hc0).mpr hcov0⟩)
        exact ⟨g, hg, hgbit⟩
      · intro g hg hgbit
        rcases (buildBT_fold_bit (firstLo cs) cs [] g.TargetBB
            ((x - firstLo cs).toNat)).mp ⟨g, hg, rfl, hgbit⟩ with
          ⟨g2, hg2, _⟩ | ⟨c, hc, hcbb, hcbit⟩
        · simp at hg2
        · have hcov2 := (hbit c hc).mp hcbit
          have hceq := cover_unique x cs hs hw c hc c0 hc0
            hcov2.1 hcov2.2 hcov0.1 hcov0.2
          rw [← hcbb, hceq]
    · push_neg at hcov
      rw [lscan_of_no_cover cs d x
        (fun c hc hcc => absurd hcc.2 (not_le.mpr (hcov c hc hcc.1)))]
      apply btFind_default
      intro g hg
      cases hb : g.Mask.testBit ((x - firstLo cs).toNat) with
      | false => rfl
      | true =>
        rcases (buildBT_fold_bit (firstLo cs) cs [] g.TargetBB
            ((x - firstLo cs).toNat)).mp ⟨g, hg, rfl, hb⟩ with
          ⟨g2, hg2, _⟩ | ⟨c, hc, _, hcbit⟩
        · simp at hg2
        · have hcov2 := (hbit c hc).mp hcbit
          exact absurd hcov2.2 (not_le.mpr (hcov c hc hcov2.1))
  · rw [if_neg hin]
    exact (lscan_out_of_range cs d x hs hw (by omega)).symm

theorem decompose_route_aux :
    ∀ (n : Nat) (cs : List SCase) (d : Nat) (x : Int), cs.length ≤ n →
      sortedDisjB cs = true → wfB cs = true →
      (decompose cs d).route x = lscan cs d x := by
  intro n
  induction n with
  | zero =>
    intro cs d x hlen _ _
    cases cs with
    | nil =>
      rw [decompose]
      rw [dif_pos (by simp : ([] : List SCase).length ≤ 3)]
      rfl
    | cons c rest => simp at hlen
  | succ n ih =>
    intro cs d x hlen hs hw
    rw [decompose]
    by_cases h3 : cs.length ≤ 3
    · rw [dif_pos h3]
      rfl
    · rw [dif_neg h3]
      by_cases h64 : lastHi cs - firstLo cs + 1 ≤ 64
      · rw [if_pos h64]
        exact routeBT_correct cs d x hs hw
      · rw [if_neg h64]
        by_cases hdense : 4 * (lastHi cs - firstLo cs + 1) ≤ 10 * coverage cs
        · rw [if_pos hdense]
          exact routeTable_correct cs d x hs hw
        · rw [if_neg hdense]
          have hsplit : cs.take (cs.length / 2) ++ cs.drop (cs.length / 2) = cs :=
            List.take_append_drop _ cs
          have htlen : (cs.take (cs.length / 2)).length = cs.length / 2 := by
            rw [List.length_take]
            omega
          have hdlen : (cs.drop (cs.length / 2)).length =
              cs.length - cs.length / 2 := List.length_drop _ cs
          have hs2 : sortedDisjB
              (cs.take (cs.length / 2) ++ cs.drop (cs.length / 2)) = true := by
            rw [hsplit]; exact hs
          have hw2 : wfB
              (cs.take (cs.length / 2) ++ cs.drop (cs.length / 2)) = true := by
            rw [hsplit]; exact hw
          have hsA := sortedDisjB_append_left _ _ hs2
          have hsB := sortedDisjB_append_right _ _ hs2
          have hwA : wfB (cs.take (cs.length / 2)) = true :=
            wfB_of_sub _ _ (fun c hc => List.mem_of_mem_take hc) hw
          have hwB : wfB (cs.drop (cs.length / 2)) = true :=
            wfB_of_sub _ _ (fun c hc => List.mem_of_mem_drop hc) hw
          simp only [DTree.route]
          by_cases hx : x < firstLo (cs.drop (cs.length / 2))
          · rw [if_pos hx]
            rw [ih (cs.take (cs.length / 2)) d x (by omega) hsA hwA]
            have hcs : lscan cs d x =
                lscan (cs.take (cs.length / 2) ++ cs.drop (cs.length / 2)) d x := by
              rw [hsplit]
            rw [hcs, lscan_append_of_none_right]
            intro c hc
            have h1 : firstLo (cs.drop (cs.length / 2)) ≤ c.lo :=
              firstLo_le _ hsB hwB c hc
            omega
          · rw [if_neg hx]
            rw [ih (cs.drop (cs.length / 2)) d x (by omega) hsB hwB]
            have hcs : lscan cs d x =
                lscan (cs.take (cs.length / 2) ++ cs.drop (cs.length / 2)) d x := by
              rw [hsplit]
            rw [hcs, lscan_append_of_none_left]
            intro c hc
            cases hdrop : cs.drop (cs.length / 2) with
            | nil =>
              rw [hdrop] at hdlen
              simp at hdlen
              omega
            | cons p rest =>
              have hp : p ∈ cs.drop (cs.length / 2) := by
                rw [hdrop]; simp
              have hcross := sorted_cross _ _ hs2 hw2 c hc p hp
              have hflo : firstLo (cs.drop (cs.length / 2)) = p.lo := by
                rw [hdrop]; rfl
              omega

/-- Claim C1: for a well-formed, sorted, disjoint case list, the decision
structure emitted by switch decomposition (compare chains, jump tables,
bit tests and pivot splits) routes every concrete input value to exactly one
destination -- routing is a total function -- and that destination equals
the one computed by a naive linear scan of the case list: the matched case's
target when some range contains the value, the default target otherwise. -/
theorem switch_decomposition_refines_linear_scan (cs : List SCase)
    (dflt : Nat) (x : Int) (hs : sortedDisjB cs = true)
    (hw : wfB cs = true) :
    (decompose cs dflt).route x = lscan cs dflt x :=
  decompose_route_aux cs.length cs dflt x (le_refl _) hs hw

/-- Claim C1 witness: the spec example with cases 0..2 -> block 1,
10..20 -> block 2 and default block 0 routes 15 to block 2 and 5 to the
default. -/
theorem switch_decomposition_refines_linear_scan_witness :
    ((decompose [⟨0, 2, 1, 10⟩, ⟨10, 20, 2, 20⟩] 0).route 15 =
      lscan [⟨0, 2, 1, 10⟩, ⟨10, 20, 2, 20⟩] 0 15) ∧
    lscan [⟨0, 2, 1, 10⟩, ⟨10, 20, 2, 20⟩] 0 15 = 2 ∧
    ((decompose [⟨0, 2, 1, 10⟩, ⟨10, 20, 2, 20⟩] 0).route 5 =
      lscan [⟨0, 2, 1, 10⟩, ⟨10, 20, 2, 20⟩] 0 5) ∧
    lscan [⟨0, 2, 1, 10⟩, ⟨10, 20, 2, 20⟩] 0 5 = 0 :=
  ⟨switch_decomposition_refines_linear_scan _ 0 15 (by decide) (by decide),
   by decide,
   switch_decomposition_refines_linear_scan _ 0 5 (by decide) (by decide),
   by decide⟩

theorem addCaseBits_weight :
    ∀ (gs : List BTCase) (mask bb w : Nat),
      ((addCaseBits gs mask bb w).map (fun g => g.ExtraWeight)).sum % W32 =
      ((gs.map (fun g => g.ExtraWeight)).sum + w) % W32 := by
  intro gs
  induction gs with
  | nil => intro mask bb w; simp [addCaseBits]
  | cons g rest ih =>
    intro mask bb w
    by_cases hbb : g.TargetBB = bb
    · simp only [addCaseBits, if_pos hbb, List.map_cons, List.sum_cons]
      rw [Nat.mod_add_mod]
      congr 1
      omega
    · simp only [addCaseBits, if_neg hbb, List.map_cons, List.sum_cons]
      rw [Nat.add_mod, ih, ← Nat.add_mod]
      congr 1
      omega

theorem buildBT_weight_fold (first : Int) :
    ∀ (cs : List SCase) (gs : List BTCase),
      ((cs.foldl
          (fun gs c =>
            addCaseBits gs
              (maskRange (c.lo - first).toNat (c.hi - first).toNat)
              c.bb c.weight) gs).map (fun g => g.ExtraWeight)).sum % W32 =
      ((gs.map (fun g => g.ExtraWeight)).sum +
        (cs.map (fun c => c.weight)).sum) % W32 := by
  intro cs
  induction cs with
  | nil => intro gs; simp
  | cons c rest ih =>
    intro gs
    simp only [List.foldl_cons, List.map_cons, List.sum_cons]
    rw [ih, Nat.add_mod, addCaseBits_weight, ← Nat.add_mod]
    congr 1
    omega

theorem decomposition_conserves_weights_aux :
    ∀ (n : Nat) (cs : List SCase) (d : Nat), cs.length ≤ n →
      (leafWeights (decompose cs d)).sum % W32 =
      (cs.map (fun c => c.weight)).sum % W32 := by
  intro n
  induction n with
  | zero =>
    intro cs d hlen
    cases cs with
    | nil =>
      rw [decompose]
      rw [dif_pos (by simp : ([] : List SCase).length ≤ 3)]
      rfl
    | cons c rest => simp at hlen
  | succ n ih =>
    intro cs d hlen
    rw [decompose]
    by_cases h3 : cs.length ≤ 3
    · rw [dif_pos h3]
      rfl
    · rw [dif_neg h3]
      by_cases h64 : lastHi cs - firstLo cs + 1 ≤ 64
      · rw [if_pos h64]
        show ((buildBT (firstLo cs) cs).map (fun g => g.ExtraWeight)).sum % W32 = _
        unfold buildBT
        rw [buildBT_weight_fold]
        simp
      · rw [if_neg h64]
        by_cases hdense : 4 * (lastHi cs - firstLo cs + 1) ≤ 10 * coverage cs
        · rw [if_pos hdense]
          rfl
        · rw [if_neg hdense]
          have htlen : (cs.take (cs.length / 2)).length = cs.length / 2 := by
            rw [List.length_take]
            omega
          have hdlen : (cs.drop (cs.length / 2)).length =
              cs.length - cs.length / 2 := List.length_drop _ cs
          have hsum : ((cs.take (cs.length / 2)).map (fun c => c.weight)).sum +
              ((cs.drop (cs.length / 2)).map (fun c => c.weight)).sum =
              (cs.map (fun c => c.weight)).sum := by
            rw [← List.sum_append, ← List.map_append, List.take_append_drop]
          show (leafWeights (decompose (cs.take (cs.length / 2)) d) ++
              leafWeights (decompose (cs.drop (cs.length / 2)) d)).sum % W32 = _
          rw [List.sum_append, Nat.add_mod, ih _ d (by omega), ih _ d (by omega),
            ← Nat.add_mod, hsum]

/-- Claim C8: switch decomposition conserves edge weights: the sum of the
weights on all leaf edges of the emitted decision structure (CaseBlock
weights of compare chains, jump-table successor weights, and BitTestCase
ExtraWeights) equals the sum of the input case weights, in exact unsigned
32-bit integer arithmetic, because weights propagate additively through the
bit-test case merges and the pivot range splits. -/
theorem decomposition_conserves_weights (cs : List SCase) (dflt : Nat) :
    (leafWeights (decompose cs dflt)).sum % W32 =
    (cs.map (fun c => c.weight)).sum % W32 :=
  decomposition_conserves_weights_aux cs.length cs dflt (le_refl _)

end SDB
